import Mathlib

open scoped List

/-!
Verification of the peer-review-scores cleaning and analysis pipeline.

The definitions below are a shallow embedding of the Python sources:
`clean.py` (score extraction, reviewer join, first-review selection, bias
calculation), `bias_revlen_to_acceptance.py` (acceptance labeling) and
`bias_revlen_to_phd.py` (PhD-year bucketing).  Dataframes are embedded as
lists of rows, floating-point score arithmetic as exact rationals, and the
undefined result of a zero division as `Option.none`.
-/

namespace PeerReview

/-! ### Field identifiers (`class Field(Enum)` in clean.py) -/

def F_AUDIENCE : Nat := 3
def F_OVERALL : Nat := 5
def F_CONFIDENCE : Nat := 6
def F_ALTERNATIVE : Nat := 7

/-! ### Score extraction (`listify_scores` in clean.py)

`listify_scores` applies `re.findall(r'\-?\d+', scores)` and converts every
match to an int.  The scan below is a state machine implementing exactly the
leftmost, non-overlapping, greedy matching of that pattern: a maximal digit
run, optionally preceded by a minus sign, becomes one integer token. -/

inductive ScanState where
  | idle
  | pendingMinus
  | building (neg : Bool) (val : Nat)

def signedVal (neg : Bool) (v : Nat) : Int :=
  if neg then -(v : Int) else (v : Int)

def digitVal (c : Char) : Nat := c.toNat - 48

def scanAux : List Char → ScanState → List Int
  | [], .idle => []
  | [], .pendingMinus => []
  | [], .building neg v => [signedVal neg v]
  | c :: cs, .idle =>
      if c.isDigit then scanAux cs (.building false (digitVal c))
      else if c = '-' then scanAux cs .pendingMinus
      else scanAux cs .idle
  | c :: cs, .pendingMinus =>
      if c.isDigit then scanAux cs (.building true (digitVal c))
      else if c = '-' then scanAux cs .pendingMinus
      else scanAux cs .idle
  | c :: cs, .building neg v =>
      if c.isDigit then scanAux cs (.building neg (10 * v + digitVal c))
      else if c = '-' then signedVal neg v :: scanAux cs .pendingMinus
      else signedVal neg v :: scanAux cs .idle

def listify_scores (scores : String) : List Int :=
  scanAux scores.data .idle

/-! ### The enriched-review row (columns of the combined dataframe)

`review_datetime` is embedded as a `Nat` (timestamps compare by `≤`);
`phd_year` is nullable (`Year of PhD` has missing values). -/

structure Row where
  review_id : Nat
  submission_id : Nat
  member_id : Nat
  member_name : String
  phd_year : Option Int
  track : String
  score : Int
  review_length : Nat
  review_datetime : Nat
  deriving DecidableEq, Repr

/-- the (member_id, submission_id) subset used by `drop_duplicates` in
`find_first_reviews`. -/
def pairKey (r : Row) : Nat × Nat := (r.member_id, r.submission_id)

def dropDupOn : List Row → List (Nat × Nat) → List Row
  | [], _ => []
  | r :: rs, seen =>
      if pairKey r ∈ seen then dropDupOn rs seen
      else r :: dropDupOn rs (pairKey r :: seen)

/-- `combined_reviews.drop_duplicates(subset=['member_id', 'submission_id'])`
in `find_first_reviews`: keep the first occurrence of each
(member_id, submission_id) pair, preserving row order. -/
def drop_duplicates (l : List Row) : List Row := dropDupOn l []

/-- Lexicographic comparison on (member_id, submission_id, review_datetime):
the ascending multi-column sort key used by
`sort_values(by=['member_id', 'submission_id', 'review_datetime'])` in
`combine_all_reviews`. -/
def tripleLex (a b : Row) : Prop :=
  a.member_id < b.member_id ∨
    (a.member_id = b.member_id ∧
      (a.submission_id < b.submission_id ∨
        (a.submission_id = b.submission_id ∧
          a.review_datetime ≤ b.review_datetime)))

instance : DecidableRel tripleLex := fun a b => by
  unfold tripleLex; infer_instance

/-- Full equality of the three sort-key columns (a tie in the sort). -/
def tripleKeyEq (a b : Row) : Prop :=
  a.member_id = b.member_id ∧ a.submission_id = b.submission_id ∧
    a.review_datetime = b.review_datetime

instance : DecidableRel tripleKeyEq := fun a b => by
  unfold tripleKeyEq; infer_instance

/-- The multi-key `sort_values` of `combine_all_reviews`: pandas sorts on
several keys with `numpy.lexsort`, a stable lexicographic sort, embedded
here as a stable insertion sort on the lexicographic key. -/
def sortReviews (l : List Row) : List Row := List.insertionSort tripleLex l

end PeerReview

namespace PeerReview

/-- C2 counterexample: on the spec's test input, `listify_scores` does NOT
return the truncated list `[3, -2, 4, 1]`: the regex scan also picks up the
trailing `99` from the free text, and no truncation to 4 tokens occurs. -/
theorem listify_scores_not_truncated :
    ¬ listify_scores
        "Audience: 3 Overall: -2 Confidence: 4 Alternative: 1 some free text 99"
      = [3, -2, 4, 1] := by
  decide

/-- C2 (amended): on the spec's test input, `listify_scores` returns every
integer token in document order, namely `[3, -2, 4, 1, 99]` — including the
trailing `99` from the free text; the first four tokens are `[3, -2, 4, 1]`
but the function performs no truncation or validation to 4 tokens. -/
theorem listify_scores_all_tokens :
    listify_scores
        "Audience: 3 Overall: -2 Confidence: 4 Alternative: 1 some free text 99"
      = [3, -2, 4, 1, 99]
    ∧ (listify_scores
        "Audience: 3 Overall: -2 Confidence: 4 Alternative: 1 some free text 99").take 4
      = [3, -2, 4, 1] := by
  constructor <;> decide

end PeerReview

namespace PeerReview

theorem mem_of_mem_dropDupOn {l : List Row} {seen : List (Nat × Nat)} {r : Row}
    (h : r ∈ dropDupOn l seen) : r ∈ l ∧ pairKey r ∉ seen := by
  induction l generalizing seen with
  | nil => simp [dropDupOn] at h
  | cons a t ih =>
    by_cases hk : pairKey a ∈ seen
    · simp only [dropDupOn, if_pos hk] at h
      obtain ⟨h1, h2⟩ := ih h
      exact ⟨List.mem_cons_of_mem _ h1, h2⟩
    · simp only [dropDupOn, if_neg hk] at h
      rcases List.mem_cons.mp h with rfl | h
      · exact ⟨List.mem_cons_self _ _, hk⟩
      · obtain ⟨h1, h2⟩ := ih h
        exact ⟨List.mem_cons_of_mem _ h1,
          fun hmem => h2 (List.mem_cons_of_mem _ hmem)⟩

theorem nodup_keys_dropDupOn (l : List Row) (seen : List (Nat × Nat)) :
    ((dropDupOn l seen).map pairKey).Nodup := by
  induction l generalizing seen with
  | nil => simp [dropDupOn]
  | cons a t ih =>
    by_cases hk : pairKey a ∈ seen
    · simp only [dropDupOn, if_pos hk]
      exact ih seen
    · simp only [dropDupOn, if_neg hk, List.map_cons, List.nodup_cons]
      refine ⟨fun hmem => ?_, ih _⟩
      obtain ⟨r, hr, hkey⟩ := List.mem_map.mp hmem
      have h2 := (mem_of_mem_dropDupOn hr).2
      rw [hkey] at h2
      exact h2 (List.mem_cons_self _ _)

theorem exists_key_dropDupOn {l : List Row} {e : Row} (he : e ∈ l)
    {seen : List (Nat × Nat)} (hs : pairKey e ∉ seen) :
    ∃ r ∈ dropDupOn l seen, pairKey r = pairKey e := by
  induction l generalizing seen with
  | nil => cases he
  | cons a t ih =>
    by_cases hk : pairKey a ∈ seen
    · simp only [dropDupOn, if_pos hk]
      rcases List.mem_cons.mp he with rfl | he'
      · exact absurd hk hs
      · exact ih he' hs
    · simp only [dropDupOn, if_neg hk]
      by_cases hek : pairKey e = pairKey a
      · exact ⟨a, List.mem_cons_self _ _, hek.symm⟩
      · rcases List.mem_cons.mp he with rfl | he'
        · exact absurd rfl hek
        · obtain ⟨r, hr, hkey⟩ := ih he' (fun hmem => by
            rcases List.mem_cons.mp hmem with h1 | h1
            · exact hek h1
            · exact hs h1)
          exact ⟨r, List.mem_cons_of_mem _ hr, hkey⟩

theorem tripleLex_datetime_le {a b : Row} (h : tripleLex a b)
    (hk : pairKey b = pairKey a) : a.review_datetime ≤ b.review_datetime := by
  have h1 : b.member_id = a.member_id := congrArg Prod.fst hk
  have h2 : b.submission_id = a.submission_id := congrArg Prod.snd hk
  rcases h with hlt | ⟨_, hlt | ⟨_, hle⟩⟩
  · rw [h1] at hlt
    exact absurd hlt (lt_irrefl _)
  · rw [h2] at hlt
    exact absurd hlt (lt_irrefl _)
  · exact hle

theorem dropDupOn_min_datetime {l : List Row} (hp : l.Pairwise tripleLex)
    {seen : List (Nat × Nat)} {r : Row} (hr : r ∈ dropDupOn l seen) :
    ∀ s ∈ l, pairKey s = pairKey r → r.review_datetime ≤ s.review_datetime := by
  induction l generalizing seen with
  | nil => simp [dropDupOn] at hr
  | cons a t ih =>
    obtain ⟨ha, hpt⟩ := List.pairwise_cons.mp hp
    by_cases hk : pairKey a ∈ seen
    · simp only [dropDupOn, if_pos hk] at hr
      intro s hs hkey
      rcases List.mem_cons.mp hs with rfl | hs'
      · have h2 := (mem_of_mem_dropDupOn hr).2
        rw [← hkey] at h2
        exact absurd hk h2
      · exact ih hpt hr s hs' hkey
    · simp only [dropDupOn, if_neg hk] at hr
      rcases List.mem_cons.mp hr with rfl | hr'
      · intro s hs hkey
        rcases List.mem_cons.mp hs with rfl | hs'
        · exact le_refl _
        · exact tripleLex_datetime_le (ha s hs') hkey
      · intro s hs hkey
        rcases List.mem_cons.mp hs with rfl | hs'
        · have h2 := (mem_of_mem_dropDupOn hr').2
          rw [← hkey] at h2
          exact absurd (List.mem_cons_self _ _) h2
        · exact ih hpt hr' s hs' hkey

/-- C3: on an input sorted ascending by (member_id, submission_id,
review_datetime), `drop_duplicates` keeps at most one row per
(member_id, submission_id) pair, every pair present in the input is
represented, and when a pair has a unique earliest `review_datetime` the
retained row is that earliest one. -/
theorem first_review_selection (l : List Row) (hsort : l.Pairwise tripleLex) :
    ((drop_duplicates l).map pairKey).Nodup
    ∧ (∀ e ∈ l, ∃ r ∈ drop_duplicates l, pairKey r = pairKey e)
    ∧ ∀ e ∈ l,
        (∀ s ∈ l, pairKey s = pairKey e → s ≠ e →
          e.review_datetime < s.review_datetime) →
        ∀ r ∈ drop_duplicates l, pairKey r = pairKey e → r = e := by
  refine ⟨nodup_keys_dropDupOn l [],
    fun e he => exists_key_dropDupOn he (by simp), ?_⟩
  intro e he huniq r hr hkey
  by_contra hne
  have h1 : r.review_datetime ≤ e.review_datetime :=
    dropDupOn_min_datetime hsort hr e he hkey.symm
  have hrl : r ∈ l := (mem_of_mem_dropDupOn hr).1
  have h2 : e.review_datetime < r.review_datetime := huniq r hrl hkey hne
  exact absurd h1 (not_le.mpr h2)

def exRow1 : Row := ⟨1, 7, 4, "ann ahn", none, "hci", 3, 120, 202001011000⟩

def exRow2 : Row := ⟨2, 7, 4, "ann ahn", none, "hci", 5, 90, 202001050900⟩

/-- Witness for C3 at the spec's concrete example: two reviews by the same
(member, submission) pair at 2020-01-01T10:00 and 2020-01-05T09:00. -/
theorem first_review_selection_witness :
    ((drop_duplicates [exRow1, exRow2]).map pairKey).Nodup
    ∧ (∀ e ∈ [exRow1, exRow2],
        ∃ r ∈ drop_duplicates [exRow1, exRow2], pairKey r = pairKey e)
    ∧ ∀ e ∈ [exRow1, exRow2],
        (∀ s ∈ [exRow1, exRow2], pairKey s = pairKey e → s ≠ e →
          e.review_datetime < s.review_datetime) →
        ∀ r ∈ drop_duplicates [exRow1, exRow2], pairKey r = pairKey e → r = e :=
  first_review_selection [exRow1, exRow2] (by decide)

end PeerReview

namespace PeerReview

theorem tripleKeyEq_lex {a b : Row} (h : tripleKeyEq a b) : tripleLex a b := by
  obtain ⟨h1, h2, h3⟩ := h
  exact Or.inr ⟨h1, Or.inr ⟨h2, le_of_eq h3⟩⟩

theorem no_earlier_same_key :
    ∀ {m : List Row}, m.Nodup → ∀ {seen : List (Nat × Nat)} {r s : Row},
      r ∈ dropDupOn m seen → [s, r] <+ m → pairKey s = pairKey r → False := by
  intro m
  induction m with
  | nil =>
    intro _ seen r s hr _ _
    simp [dropDupOn] at hr
  | cons a t ih =>
    intro hnd seen r s hr hsub hk
    obtain ⟨hat, hndt⟩ := List.nodup_cons.mp hnd
    by_cases hka : pairKey a ∈ seen
    · simp only [dropDupOn, if_pos hka] at hr
      cases hsub with
      | cons _ h => exact ih hndt hr h hk
      | cons₂ _ h =>
        have h2 := (mem_of_mem_dropDupOn hr).2
        rw [← hk] at h2
        exact h2 hka
    · simp only [dropDupOn, if_neg hka] at hr
      cases hsub with
      | cons _ h =>
        rcases List.mem_cons.mp hr with rfl | hr'
        · exact hat (h.subset (by simp))
        · exact ih hndt hr' h hk
      | cons₂ _ h =>
        rcases List.mem_cons.mp hr with rfl | hr'
        · exact hat (h.subset (by simp))
        · have h2 := (mem_of_mem_dropDupOn hr').2
          rw [← hk] at h2
          exact h2 (List.mem_cons_self _ _)

/-- C6: the multi-key sort preceding first-review selection is stable —
rows whose three sort keys tie keep their original relative order — and
therefore the deduplication retains the first of the tied rows in original
input order. -/
theorem sort_stability (l : List Row) (hnd : l.Nodup) (a : Row) (ha : a ∈ l)
    (htie : ∀ s ∈ l, pairKey s = pairKey a → tripleKeyEq s a)
    (hfirst : ∀ s ∈ l, pairKey s = pairKey a → s ≠ a → [a, s] <+ l) :
    (∀ x y : Row, tripleKeyEq x y → [x, y] <+ l → [x, y] <+ sortReviews l)
    ∧ ∀ r ∈ drop_duplicates (sortReviews l), pairKey r = pairKey a → r = a := by
  have hstab : ∀ x y : Row, tripleKeyEq x y → [x, y] <+ l →
      [x, y] <+ sortReviews l := by
    intro x y hxy hsub
    exact List.pair_sublist_insertionSort (tripleKeyEq_lex hxy) hsub
  refine ⟨hstab, ?_⟩
  intro r hr hk
  by_contra hne
  have hrs : r ∈ sortReviews l := (mem_of_mem_dropDupOn hr).1
  have hrl : r ∈ l := (List.perm_insertionSort tripleLex l).subset hrs
  have hsub : [a, r] <+ l := hfirst r hrl hk hne
  have htieR : tripleKeyEq r a := htie r hrl hk
  have htieAR : tripleKeyEq a r := ⟨htieR.1.symm, htieR.2.1.symm, htieR.2.2.symm⟩
  have hsub2 : [a, r] <+ sortReviews l := hstab a r htieAR hsub
  have hndS : (sortReviews l).Nodup :=
    ((List.perm_insertionSort tripleLex l).nodup_iff).mpr hnd
  exact no_earlier_same_key hndS hr hsub2 hk.symm

def tieRow1 : Row := ⟨1, 7, 4, "ann ahn", none, "hci", 3, 120, 500⟩

def tieRow2 : Row := ⟨2, 7, 4, "ann ahn", none, "hci", 5, 90, 500⟩

def tieRow3 : Row := ⟨3, 8, 9, "bo chen", some 2005, "ml", 4, 50, 100⟩

/-- Witness for C6: two rows tied on all three sort keys plus one unrelated
row; the retained row for the tied pair is the one first in input order. -/
theorem sort_stability_witness :
    (∀ x y : Row, tripleKeyEq x y → [x, y] <+ [tieRow1, tieRow2, tieRow3] →
      [x, y] <+ sortReviews [tieRow1, tieRow2, tieRow3])
    ∧ ∀ r ∈ drop_duplicates (sortReviews [tieRow1, tieRow2, tieRow3]),
        pairKey r = pairKey tieRow1 → r = tieRow1 :=
  sort_stability [tieRow1, tieRow2, tieRow3] (by decide) tieRow1 (by decide)
    (by decide) (by decide)

end PeerReview

namespace PeerReview

/-! ### The reviewer join (`read_members`, `read_all_reviews`,
`combine_all_reviews` in clean.py) -/

structure RawReview where
  review_id : Nat
  submission_id : Nat
  member_id : Nat
  member_name : String
  review_datetime : Nat
  score : Int
  review_length : Nat
  deriving DecidableEq, Repr

structure Member where
  first_name : String
  last_name : String
  track : String
  phd_year : Option Int
  deriving DecidableEq, Repr

/-- The normalized full name built by `read_members`: lower-cased first
name, a single space, lower-cased last name. -/
def memberName (m : Member) : String :=
  m.first_name.toLower ++ " " ++ m.last_name.toLower

/-- The lower-casing of `member_name` done in `read_all_reviews`. -/
def normalizeReview (r : RawReview) : RawReview :=
  { r with member_name := r.member_name.toLower }

/-- One output row of `pd.merge(reviews, members, on='member_name')`:
review columns from the review row, `phd_year` and `track` from the
matching member row. -/
def joinRow (r : RawReview) (m : Member) : Row :=
  ⟨r.review_id, r.submission_id, r.member_id, r.member_name,
    m.phd_year, m.track, r.score, r.review_length, r.review_datetime⟩

/-- The inner join `pd.merge(reviews, members, on='member_name')` in
`combine_all_reviews`: each review row pairs with every member row whose
normalized full name equals the review's (already lower-cased)
`member_name`; unmatched review rows produce nothing. -/
def mergeReviews (reviews : List RawReview) (members : List Member) :
    List Row :=
  reviews.flatMap (fun r =>
    (members.filter (fun m => memberName m = r.member_name)).map (joinRow r))

/-- `combine_all_reviews` composed with the name normalization of
`read_all_reviews`: join, then sort by
(member_id, submission_id, review_datetime). -/
def combine_all_reviews (reviews : List RawReview) (members : List Member) :
    List Row :=
  sortReviews (mergeReviews (reviews.map normalizeReview) members)

/-- C7: the join matches a review to reviewers by comparing the review's
lower-cased `member_name` with the reviewer's lower-cased first name, a
single space, and the lower-cased last name; a review with no matching
reviewer contributes no row to the join output (inner join), a review with
a matching reviewer is present, and every output row arises from such a
match. -/
theorem reviewer_join (reviews : List RawReview) (members : List Member)
    (hdist : (reviews.map RawReview.review_id).Nodup)
    (r : RawReview) (hr : r ∈ reviews) :
    ((∀ m ∈ members, memberName m ≠ r.member_name.toLower) →
      ∀ row ∈ mergeReviews (reviews.map normalizeReview) members,
        row.review_id ≠ r.review_id)
    ∧ ((∃ m ∈ members, memberName m = r.member_name.toLower) →
      ∃ row ∈ mergeReviews (reviews.map normalizeReview) members,
        row.review_id = r.review_id)
    ∧ ∀ row ∈ mergeReviews (reviews.map normalizeReview) members,
        ∃ s ∈ reviews, ∃ m ∈ members,
          row = joinRow (normalizeReview s) m ∧
          memberName m = s.member_name.toLower := by
  refine ⟨?_, ?_, ?_⟩
  · intro hnone row hrow heq
    obtain ⟨r', hr', hrow'⟩ := List.mem_flatMap.mp hrow
    obtain ⟨s, hs, rfl⟩ := List.mem_map.mp hr'
    obtain ⟨m, hm, rfl⟩ := List.mem_map.mp hrow'
    have hmm := List.mem_filter.mp hm
    have hid : s.review_id = r.review_id := heq
    have hsr : s = r := by
      have h1 : RawReview.review_id s = RawReview.review_id r := hid
      have := List.inj_on_of_nodup_map hdist
      exact this hs hr h1
    subst hsr
    exact hnone m hmm.1 (by simpa [normalizeReview] using of_decide_eq_true hmm.2)
  · rintro ⟨m, hm, hname⟩
    refine ⟨joinRow (normalizeReview r) m, ?_, rfl⟩
    refine List.mem_flatMap.mpr ⟨normalizeReview r, List.mem_map_of_mem _ hr, ?_⟩
    refine List.mem_map_of_mem _ (List.mem_filter.mpr ⟨hm, ?_⟩)
    simp [normalizeReview, hname]
  · intro row hrow
    obtain ⟨r', hr', hrow'⟩ := List.mem_flatMap.mp hrow
    obtain ⟨s, hs, rfl⟩ := List.mem_map.mp hr'
    obtain ⟨m, hm, rfl⟩ := List.mem_map.mp hrow'
    have hmm := List.mem_filter.mp hm
    exact ⟨s, hs, m, hmm.1, rfl,
      by simpa [normalizeReview] using of_decide_eq_true hmm.2⟩

def exReview : RawReview := ⟨1, 7, 4, "Ann Ahn", 500, 3, 120⟩

def exMember : Member := ⟨"Ann", "AHN", "hci", some 1999⟩

/-- Witness for C7: a single review matched by a single member whose
normalized names agree despite improper capitalization. -/
theorem reviewer_join_witness :
    ((∀ m ∈ [exMember], memberName m ≠ exReview.member_name.toLower) →
      ∀ row ∈ mergeReviews ([exReview].map normalizeReview) [exMember],
        row.review_id ≠ exReview.review_id)
    ∧ ((∃ m ∈ [exMember], memberName m = exReview.member_name.toLower) →
      ∃ row ∈ mergeReviews ([exReview].map normalizeReview) [exMember],
        row.review_id = exReview.review_id)
    ∧ ∀ row ∈ mergeReviews ([exReview].map normalizeReview) [exMember],
        ∃ s ∈ [exReview], ∃ m ∈ [exMember],
          row = joinRow (normalizeReview s) m ∧
          memberName m = s.member_name.toLower :=
  reviewer_join [exReview] [exMember] (by decide) exReview (by decide)

end PeerReview

namespace PeerReview

/-! ### Bias calculation (`calculate_bias` in clean.py)

`calculate_bias` groups `data` by `submission_id`, computes each group's
mean score and review count, merges those statistics back onto the rows by
`submission_id`, computes
`bias = score - (mean * count - score) / (count - 1)` and merges the
(review_id, bias) pairs back onto the original rows by `review_id`.
Float arithmetic is embedded as exact rationals; the undefined (NaN)
result of the zero division when `count - 1 = 0` is embedded as `none`. -/

/-- The scores of one submission's group (`groupby(by='submission_id')`). -/
def subScores (data : List Row) (sid : Nat) : List Int :=
  (data.filter (fun r => r.submission_id = sid)).map Row.score

/-- `grp['score'].mean()` for one submission. -/
def subMean (data : List Row) (sid : Nat) : ℚ :=
  ((subScores data sid).map (fun x : Int => (x : ℚ))).sum / (subScores data sid).length

/-- `grp.count()` for one submission. -/
def subCount (data : List Row) (sid : Nat) : Nat :=
  (subScores data sid).length

/-- The `stats` dataframe: one (submission_id, mean, count) row per
distinct submission_id occurring in `data`. -/
def statsTable (data : List Row) : List (Nat × ℚ × Nat) :=
  ((data.map Row.submission_id).dedup).map
    (fun sid => (sid, subMean data sid, subCount data sid))

/-- The expression `score - (mean * count - score) / (count - 1)`;
`none` is the undefined result when the denominator `count - 1` is zero,
i.e. when the submission has exactly one review. -/
def biasVal (score : Int) (mean : ℚ) (count : Nat) : Option ℚ :=
  if (count : ℚ) - 1 = 0 then none
  else some ((score : ℚ) - (mean * count - score) / (count - 1))

/-- `pd.merge(data, stats, on='submission_id')` projected to
(review_id, score, mean, count). -/
def data_with_mean (data : List Row) : List (Nat × Int × ℚ × Nat) :=
  data.flatMap (fun r =>
    ((statsTable data).filter (fun s => s.1 = r.submission_id)).map
      (fun s => (r.review_id, r.score, s.2.1, s.2.2)))

/-- `data_with_mean` with the bias column, projected to
(review_id, bias). -/
def biasTable (data : List Row) : List (Nat × Option ℚ) :=
  (data_with_mean data).map (fun t => (t.1, biasVal t.2.1 t.2.2.1 t.2.2.2))

/-- `calculate_bias`: the final `pd.merge(data, ..., on='review_id')`
pairing each original row with its bias value. -/
def calculate_bias (data : List Row) : List (Row × Option ℚ) :=
  data.flatMap (fun r =>
    ((biasTable data).filter (fun b => b.1 = r.review_id)).map
      (fun b => (r, b.2)))

/-- The per-row bias as a direct function of the row's group. -/
def rowBias (data : List Row) (r : Row) : Option ℚ :=
  biasVal r.score (subMean data r.submission_id) (subCount data r.submission_id)

theorem flatMap_eq_map_of_singleton {α β : Type _} {f : α → List β} {g : α → β} :
    ∀ {l : List α}, (∀ a ∈ l, f a = [g a]) → l.flatMap f = l.map g := by
  intro l
  induction l with
  | nil => intro _; rfl
  | cons a t ih =>
    intro h
    rw [List.flatMap_cons, h a (List.mem_cons_self _ _),
      ih (fun b hb => h b (List.mem_cons_of_mem _ hb))]
    rfl

theorem filter_key_eq_of_nodup {α β : Type _} [DecidableEq β] {key : α → β} :
    ∀ {l : List α}, (l.map key).Nodup → ∀ {r : α}, r ∈ l →
      l.filter (fun x => key x = key r) = [r] := by
  intro l
  induction l with
  | nil =>
    intro _ r hr
    cases hr
  | cons a t ih =>
    intro hnd r hr
    rw [List.map_cons, List.nodup_cons] at hnd
    obtain ⟨hat, hndt⟩ := hnd
    rcases List.mem_cons.mp hr with rfl | hr'
    · rw [List.filter_cons_of_pos (by simp)]
      have hnil : t.filter (fun x => key x = key r) = [] := by
        rw [List.filter_eq_nil_iff]
        intro x hx
        simp only [decide_eq_true_eq]
        intro hxy
        exact hat (hxy ▸ List.mem_map_of_mem _ hx)
      rw [hnil]
    · have hne : ¬ key a = key r := by
        intro h
        exact hat (by rw [h]; exact List.mem_map_of_mem _ hr')
      rw [List.filter_cons_of_neg (by simpa using hne), ih hndt hr']

/-- Relational-algebra collapse of `calculate_bias`: with pairwise-distinct
review ids the two inner joins are row-preserving, so the result is the
input rows each paired with the bias computed from its own group. -/
theorem calculate_bias_eq (data : List Row)
    (hdist : (data.map Row.review_id).Nodup) :
    calculate_bias data = data.map (fun r => (r, rowBias data r)) := by
  have hstats : ∀ r ∈ data,
      (statsTable data).filter (fun s => s.1 = r.submission_id)
        = [(r.submission_id, subMean data r.submission_id,
            subCount data r.submission_id)] := by
    intro r hr
    have hmem : (r.submission_id, subMean data r.submission_id,
        subCount data r.submission_id) ∈ statsTable data :=
      List.mem_map_of_mem _ (List.mem_dedup.mpr (List.mem_map_of_mem _ hr))
    have hnd : ((statsTable data).map Prod.fst).Nodup := by
      unfold statsTable
      rw [List.map_map]
      have hcomp : (Prod.fst ∘ fun sid : Nat =>
          (sid, subMean data sid, subCount data sid)) = fun sid : Nat => sid :=
        rfl
      rw [hcomp]
      simpa using List.nodup_dedup (data.map Row.submission_id)
    exact filter_key_eq_of_nodup hnd hmem
  have hdwm : data_with_mean data = data.map (fun r =>
      (r.review_id, r.score, subMean data r.submission_id,
        subCount data r.submission_id)) := by
    unfold data_with_mean
    apply flatMap_eq_map_of_singleton
    intro r hr
    rw [hstats r hr]
    rfl
  have hbt : biasTable data
      = data.map (fun r => (r.review_id, rowBias data r)) := by
    unfold biasTable
    rw [hdwm, List.map_map]
    rfl
  have hbtf : ∀ r ∈ data, (biasTable data).filter (fun b => b.1 = r.review_id)
      = [(r.review_id, rowBias data r)] := by
    intro r hr
    have hmem : (r.review_id, rowBias data r) ∈ biasTable data := by
      rw [hbt]
      exact List.mem_map_of_mem _ hr
    have hnd : ((biasTable data).map Prod.fst).Nodup := by
      rw [hbt, List.map_map]
      exact hdist
    exact filter_key_eq_of_nodup hnd hmem
  unfold calculate_bias
  apply flatMap_eq_map_of_singleton
  intro r hr
  rw [hbtf r hr]
  rfl

end PeerReview

namespace PeerReview

theorem cast_count_sub_one_ne_zero {k : Nat} (hk : 2 ≤ k) :
    ((k : ℚ) - 1) ≠ 0 := by
  have h2 : (2 : ℚ) ≤ (k : ℚ) := by exact_mod_cast hk
  intro h
  rw [sub_eq_zero] at h
  rw [h] at h2
  norm_num at h2

def bRow1 : Row := ⟨1, 1, 1, "a", none, "t", 3, 10, 1⟩

def bRow2 : Row := ⟨2, 1, 2, "b", none, "t", 5, 10, 2⟩

def bRow3 : Row := ⟨3, 1, 3, "c", none, "t", 7, 10, 3⟩

/-- C1: for a review with score x on a submission with n ≥ 2 reviews of
mean m, `calculate_bias` attaches the bias x − (m·n − x)/(n−1), which
algebraically equals (n/(n−1))·(x − m); for scores [3, 5, 7] the biases
are −3, 0 and 3. -/
theorem bias_formula (data : List Row) (hdist : (data.map Row.review_id).Nodup)
    (r : Row) (hr : r ∈ data)
    (n : Nat) (hn : n = subCount data r.submission_id) (h2 : 2 ≤ n)
    (m : ℚ) (hm : m = subMean data r.submission_id) :
    (r, some ((r.score : ℚ) - (m * n - r.score) / (n - 1)))
      ∈ calculate_bias data
    ∧ (r.score : ℚ) - (m * n - r.score) / (n - 1)
        = ((n : ℚ) / ((n : ℚ) - 1)) * ((r.score : ℚ) - m)
    ∧ (calculate_bias [bRow1, bRow2, bRow3]).map Prod.snd
        = [some (-3), some 0, some 3] := by
  have hne : ((n : ℚ) - 1) ≠ 0 := cast_count_sub_one_ne_zero h2
  refine ⟨?_, ?_, ?_⟩
  · rw [calculate_bias_eq data hdist]
    have hrb : rowBias data r
        = some ((r.score : ℚ) - (m * n - r.score) / (n - 1)) := by
      unfold rowBias biasVal
      rw [← hn, ← hm, if_neg hne]
    rw [← hrb]
    exact List.mem_map_of_mem _ hr
  · field_simp
    ring
  · rw [calculate_bias_eq _ (by decide)]
    norm_num [rowBias, biasVal, subMean, subCount, subScores, List.filter,
      bRow1, bRow2, bRow3]

/-- Witness for C1 at the spec's example: scores [3, 5, 7], mean 5, n = 3;
the review with score 3 receives bias −3. -/
theorem bias_formula_witness :
    (bRow1, some (-3 : ℚ)) ∈ calculate_bias [bRow1, bRow2, bRow3]
    ∧ (calculate_bias [bRow1, bRow2, bRow3]).map Prod.snd
        = [some (-3), some 0, some 3] := by
  have h := bias_formula [bRow1, bRow2, bRow3] (by decide) bRow1 (by decide) 3
    (by norm_num [subCount, subScores, List.filter, bRow1, bRow2, bRow3])
    (by norm_num) 5
    (by norm_num [subMean, subScores, List.filter, bRow1, bRow2, bRow3])
  have h1 := h.1
  norm_num [bRow1] at h1
  exact ⟨h1, h.2.2⟩

/-- C5: for a submission with exactly one review the bias computation is
undefined — the denominator count − 1 of the division is zero and the
result is `none`; the division is well-defined exactly under the
precondition n ≥ 2. -/
theorem bias_single_review (data : List Row)
    (hdist : (data.map Row.review_id).Nodup)
    (r : Row) (hr : r ∈ data) (h1 : subCount data r.submission_id = 1) :
    (r, (none : Option ℚ)) ∈ calculate_bias data
    ∧ (∀ x : Int, ∀ m : ℚ, biasVal x m 1 = none)
    ∧ ∀ x : Int, ∀ m : ℚ, ∀ k : Nat, 2 ≤ k → biasVal x m k ≠ none := by
  refine ⟨?_, ?_, ?_⟩
  · rw [calculate_bias_eq data hdist]
    have hrb : rowBias data r = none := by
      unfold rowBias biasVal
      rw [h1]
      norm_num
    rw [← hrb]
    exact List.mem_map_of_mem _ hr
  · intro x m
    unfold biasVal
    norm_num
  · intro x m k hk
    unfold biasVal
    rw [if_neg (cast_count_sub_one_ne_zero hk)]
    simp

def sRow : Row := ⟨9, 42, 5, "x y", none, "t", 4, 20, 7⟩

/-- Witness for C5: a dataset whose single submission has one review. -/
theorem bias_single_review_witness :
    (sRow, (none : Option ℚ)) ∈ calculate_bias [sRow]
    ∧ (∀ x : Int, ∀ m : ℚ, biasVal x m 1 = none)
    ∧ ∀ x : Int, ∀ m : ℚ, ∀ k : Nat, 2 ≤ k → biasVal x m k ≠ none :=
  bias_single_review [sRow] (by decide) sRow (by decide) (by decide)

/-- C10: with pairwise-distinct review_id values and every submission
having n ≥ 2 reviews, `calculate_bias` returns exactly the input rows, in
order, each row unchanged, with exactly one bias value appended — and each
appended bias is defined. -/
theorem bias_frame (data : List Row) (hdist : (data.map Row.review_id).Nodup)
    (hge2 : ∀ r ∈ data, 2 ≤ subCount data r.submission_id) :
    (calculate_bias data).map Prod.fst = data
    ∧ calculate_bias data = data.map (fun r => (r, rowBias data r))
    ∧ ∀ p ∈ calculate_bias data, ∃ b : ℚ, p.2 = some b := by
  have heq := calculate_bias_eq data hdist
  refine ⟨?_, heq, ?_⟩
  · rw [heq, List.map_map]
    have hcomp : (Prod.fst ∘ fun r : Row => (r, rowBias data r))
        = fun r : Row => r := rfl
    rw [hcomp]
    simp
  · intro p hp
    rw [heq] at hp
    obtain ⟨r, hr, rfl⟩ := List.mem_map.mp hp
    unfold rowBias biasVal
    rw [if_neg (cast_count_sub_one_ne_zero (hge2 r hr))]
    exact ⟨_, rfl⟩

/-- Witness for C10 on the three-review dataset. -/
theorem bias_frame_witness :
    (calculate_bias [bRow1, bRow2, bRow3]).map Prod.fst = [bRow1, bRow2, bRow3]
    ∧ calculate_bias [bRow1, bRow2, bRow3]
        = [bRow1, bRow2, bRow3].map
            (fun r => (r, rowBias [bRow1, bRow2, bRow3] r))
    ∧ ∀ p ∈ calculate_bias [bRow1, bRow2, bRow3], ∃ b : ℚ, p.2 = some b :=
  bias_frame [bRow1, bRow2, bRow3] (by decide) (by decide)

end PeerReview

namespace PeerReview

/-! ### Acceptance labeling (`prep_data` and `label_acceptance` in
bias_revlen_to_acceptance.py)

`prep_data` normalizes each score to its sign with
`data['score'] / abs(data['score'])`, computes per submission
`(2 - nunique(norm)) * sum(score)` and labels the result with
`label_acceptance`. -/

/-- `data['score'] / abs(data['score'])`: the normalized sign. -/
def normScore (x : Int) : ℚ := (x : ℚ) / |(x : ℚ)|

/-- `(2 - x.nunique()) * sum(scores)` for one submission's scores;
`nunique` is the number of distinct normalized values. -/
def acceptanceValue (scores : List Int) : ℚ :=
  ((2 : ℚ) - ((scores.map normScore).dedup).length)
    * (scores.map (fun x : Int => (x : ℚ))).sum

/-- `label_acceptance`: negative → rejected, positive → accepted,
zero → mixed. -/
def label_acceptance (x : ℚ) : String :=
  if x < 0 then "rejected" else if x > 0 then "accepted" else "mixed"

/-- The acceptance label `prep_data` assigns to every row of one
submission. -/
def submissionAcceptance (scores : List Int) : String :=
  label_acceptance (acceptanceValue scores)

theorem normScore_pos {x : Int} (h : 0 < x) : normScore x = 1 := by
  unfold normScore
  have hx : (0 : ℚ) < (x : ℚ) := by exact_mod_cast h
  rw [abs_of_pos hx]
  exact div_self (ne_of_gt hx)

theorem normScore_neg {x : Int} (h : x < 0) : normScore x = -1 := by
  unfold normScore
  have hx : (x : ℚ) < 0 := by exact_mod_cast h
  rw [abs_of_neg hx, div_neg, div_self (ne_of_lt hx)]

theorem dedup_const {c : ℚ} : ∀ {l : List ℚ}, l ≠ [] → (∀ y ∈ l, y = c) →
    l.dedup = [c] := by
  intro l
  induction l with
  | nil => intro h _; exact absurd rfl h
  | cons a t ih =>
    intro _ hall
    have ha : a = c := hall a (List.mem_cons_self _ _)
    subst ha
    by_cases ht : t = []
    · subst ht
      rw [List.dedup_cons_of_not_mem (by simp), List.dedup_nil]
    · have hmem : a ∈ t := by
        obtain ⟨b, hb⟩ := List.exists_mem_of_ne_nil t ht
        have hba := hall b (List.mem_cons_of_mem _ hb)
        rw [← hba]
        exact hb
      rw [List.dedup_cons_of_mem hmem]
      exact ih ht (fun y hy => hall y (List.mem_cons_of_mem _ hy))

theorem sum_map_cast (l : List Int) :
    (l.map (fun x : Int => (x : ℚ))).sum = ((l.sum : Int) : ℚ) :=
  (Int.cast_list_sum l).symm

/-- With both polarities present among nonzero scores, the sign-counting
trick produces the value 0. -/
theorem acceptance_mixed {scores : List Int} (hnz : ∀ x ∈ scores, x ≠ 0)
    (hp : ∃ p ∈ scores, 0 < p) (hq : ∃ q ∈ scores, q < 0) :
    acceptanceValue scores = 0 := by
  obtain ⟨p, hpmem, hppos⟩ := hp
  obtain ⟨q, hqmem, hqneg⟩ := hq
  have hall : ∀ y ∈ scores.map normScore, y = 1 ∨ y = -1 := by
    intro y hy
    obtain ⟨x, hx, rfl⟩ := List.mem_map.mp hy
    rcases lt_or_gt_of_ne (hnz x hx) with hlt | hgt
    · exact Or.inr (normScore_neg hlt)
    · exact Or.inl (normScore_pos hgt)
  have h1 : (1 : ℚ) ∈ scores.map normScore :=
    List.mem_map.mpr ⟨p, hpmem, normScore_pos hppos⟩
  have h2 : (-1 : ℚ) ∈ scores.map normScore :=
    List.mem_map.mpr ⟨q, hqmem, normScore_neg hqneg⟩
  have hlen : (scores.map normScore).dedup.length = 2 := by
    have hfin : (scores.map normScore).toFinset = {1, -1} := by
      ext y
      simp only [List.mem_toFinset, Finset.mem_insert, Finset.mem_singleton]
      constructor
      · exact hall y
      · rintro (rfl | rfl)
        · exact h1
        · exact h2
    rw [← List.card_toFinset, hfin]
    exact Finset.card_pair (by norm_num)
  unfold acceptanceValue
  rw [hlen]
  norm_num

/-- With all normalized signs equal, the sign-counting trick reduces to
the raw score sum. -/
theorem acceptance_same_sign {scores : List Int} (hne : scores ≠ [])
    (hconst : ∃ c : ℚ, ∀ y ∈ scores.map normScore, y = c) :
    acceptanceValue scores = (scores.map (fun x : Int => (x : ℚ))).sum := by
  obtain ⟨c, hc⟩ := hconst
  have hmapne : scores.map normScore ≠ [] := by
    intro h
    exact hne (List.map_eq_nil_iff.mp h)
  unfold acceptanceValue
  rw [dedup_const hmapne hc]
  norm_num

theorem label_pos {v : ℚ} (h : 0 < v) : label_acceptance v = "accepted" := by
  unfold label_acceptance
  rw [if_neg (by linarith), if_pos h]

theorem label_neg {v : ℚ} (h : v < 0) : label_acceptance v = "rejected" := by
  unfold label_acceptance
  rw [if_pos h]

end PeerReview

namespace PeerReview

/-- C4: for a submission whose reviews all have non-zero scores, the label
is mixed whenever both positive and negative scores occur; otherwise it is
accepted when the raw score sum is positive and rejected when it is
negative.  Scores [4, −2] give mixed, [4, 6] accepted, [−3, −1] rejected. -/
theorem acceptance_labels (scores : List Int) (hnz : ∀ x ∈ scores, x ≠ 0) :
    ((∃ p ∈ scores, 0 < p) → (∃ q ∈ scores, q < 0) →
      submissionAcceptance scores = "mixed")
    ∧ (¬ ((∃ p ∈ scores, 0 < p) ∧ (∃ q ∈ scores, q < 0)) →
        (0 < scores.sum → submissionAcceptance scores = "accepted")
        ∧ (scores.sum < 0 → submissionAcceptance scores = "rejected"))
    ∧ submissionAcceptance [4, -2] = "mixed"
    ∧ submissionAcceptance [4, 6] = "accepted"
    ∧ submissionAcceptance [-3, -1] = "rejected" := by
  refine ⟨?_, ?_, ?_, ?_, ?_⟩
  · intro hp hq
    unfold submissionAcceptance
    rw [acceptance_mixed hnz hp hq]
    simp [label_acceptance]
  · intro hnb
    by_cases hemp : scores = []
    · subst hemp
      exact ⟨fun h => absurd h (by simp), fun h => absurd h (by simp)⟩
    · have hsign : ∃ c : ℚ, ∀ y ∈ scores.map normScore, y = c := by
        by_cases hpos : ∃ p ∈ scores, 0 < p
        · refine ⟨1, fun y hy => ?_⟩
          obtain ⟨x, hx, rfl⟩ := List.mem_map.mp hy
          have hxpos : 0 < x := by
            rcases lt_or_gt_of_ne (hnz x hx) with hlt | hgt
            · exact absurd ⟨hpos, ⟨x, hx, hlt⟩⟩ hnb
            · exact hgt
          exact normScore_pos hxpos
        · refine ⟨-1, fun y hy => ?_⟩
          obtain ⟨x, hx, rfl⟩ := List.mem_map.mp hy
          have hxneg : x < 0 := by
            rcases lt_or_gt_of_ne (hnz x hx) with hlt | hgt
            · exact hlt
            · exact absurd ⟨x, hx, hgt⟩ hpos
          exact normScore_neg hxneg
      have hv : acceptanceValue scores = ((scores.sum : Int) : ℚ) := by
        rw [acceptance_same_sign hemp hsign, sum_map_cast]
      constructor
      · intro hsum
        unfold submissionAcceptance
        rw [hv]
        exact label_pos (by exact_mod_cast hsum)
      · intro hsum
        unfold submissionAcceptance
        rw [hv]
        exact label_neg (by exact_mod_cast hsum)
  · unfold submissionAcceptance
    rw [acceptance_mixed (by decide) ⟨4, by decide, by decide⟩
      ⟨-2, by decide, by decide⟩]
    simp [label_acceptance]
  · unfold submissionAcceptance
    have hconst : ∃ c : ℚ, ∀ y ∈ ([4, 6] : List Int).map normScore, y = c := by
      refine ⟨1, fun y hy => ?_⟩
      obtain ⟨x, hx, rfl⟩ := List.mem_map.mp hy
      fin_cases hx <;> exact normScore_pos (by norm_num)
    rw [acceptance_same_sign (by decide) hconst, sum_map_cast]
    apply label_pos
    norm_num
  · unfold submissionAcceptance
    have hconst : ∃ c : ℚ, ∀ y ∈ ([-3, -1] : List Int).map normScore, y = c := by
      refine ⟨-1, fun y hy => ?_⟩
      obtain ⟨x, hx, rfl⟩ := List.mem_map.mp hy
      fin_cases hx <;> exact normScore_neg (by norm_num)
    rw [acceptance_same_sign (by decide) hconst, sum_map_cast]
    apply label_neg
    norm_num

/-- Witness for C4 at the spec's example inputs [4, −2], [4, 6], [−3, −1]. -/
theorem acceptance_labels_witness :
    ((∃ p ∈ ([4, -2] : List Int), 0 < p) → (∃ q ∈ ([4, -2] : List Int), q < 0) →
      submissionAcceptance [4, -2] = "mixed")
    ∧ (¬ ((∃ p ∈ ([4, -2] : List Int), 0 < p)
          ∧ (∃ q ∈ ([4, -2] : List Int), q < 0)) →
        (0 < ([4, -2] : List Int).sum →
          submissionAcceptance [4, -2] = "accepted")
        ∧ (([4, -2] : List Int).sum < 0 →
          submissionAcceptance [4, -2] = "rejected"))
    ∧ submissionAcceptance [4, -2] = "mixed"
    ∧ submissionAcceptance [4, 6] = "accepted"
    ∧ submissionAcceptance [-3, -1] = "rejected" :=
  acceptance_labels [4, -2] (by decide)

end PeerReview

namespace PeerReview

/-! ### PhD-year bucketing (`create_phd_year_group` and `prep_data` in
bias_revlen_to_phd.py) -/

/-- `create_phd_year_group`: clump years ≤ 1990 into "~1990" and years
> 2017 into "2018~"; otherwise the literal year rendered by
`str(int(year))`. -/
def create_phd_year_group (year : Int) : String :=
  if year ≤ 1990 then "~1990"
  else if year > 2017 then "2018~"
  else toString year

/-- `prep_data` of bias_revlen_to_phd.py restricted to the bucketing: rows
without a PhD year are removed by `data['phd_year'].notna()` before
`create_phd_year_group` runs, so they receive no bucket. -/
def prep_phd (rows : List Row) : List (Row × String) :=
  (rows.filter (fun r => r.phd_year.isSome)).map
    (fun r => (r, create_phd_year_group (r.phd_year.getD 0)))

/-- C9: the bucketing maps years ≤ 1990 to "~1990", years > 2017 to
"2018~", any other year to the literal year string (1988 → "~1990",
2020 → "2018~", 2005 → "2005"); rows with a missing PhD year are excluded
before bucketing and receive no bucket, while rows with a year present
receive their bucket. -/
theorem phd_bucketing (rows : List Row) (r : Row) (hr : r ∈ rows)
    (hnone : r.phd_year = none) :
    (∀ p ∈ prep_phd rows, p.1 ≠ r)
    ∧ (∀ s ∈ rows, ∀ y : Int, s.phd_year = some y →
        (s, create_phd_year_group y) ∈ prep_phd rows)
    ∧ (∀ y : Int, y ≤ 1990 → create_phd_year_group y = "~1990")
    ∧ (∀ y : Int, 2017 < y → create_phd_year_group y = "2018~")
    ∧ (∀ y : Int, 1990 < y → y ≤ 2017 → create_phd_year_group y = toString y)
    ∧ create_phd_year_group 1988 = "~1990"
    ∧ create_phd_year_group 2020 = "2018~"
    ∧ create_phd_year_group 2005 = "2005" := by
  refine ⟨?_, ?_, ?_, ?_, ?_, ?_, ?_, ?_⟩
  · intro p hp heq
    obtain ⟨s, hs, rfl⟩ := List.mem_map.mp hp
    obtain ⟨_, hsome⟩ := List.mem_filter.mp hs
    have heqs : s = r := heq
    rw [heqs, hnone] at hsome
    simp at hsome
  · intro s hs y hy
    refine List.mem_map.mpr ⟨s, List.mem_filter.mpr ⟨hs, by rw [hy]; rfl⟩, ?_⟩
    rw [hy]
    rfl
  · intro y h
    unfold create_phd_year_group
    rw [if_pos h]
  · intro y h
    unfold create_phd_year_group
    rw [if_neg (by omega), if_pos h]
  · intro y h1 h2
    unfold create_phd_year_group
    rw [if_neg (by omega), if_neg (by omega)]
  · decide
  · decide
  · decide

/-- Witness for C9: a row with a missing PhD year alongside one with a
year, at the spec's example years. -/
theorem phd_bucketing_witness :
    (∀ p ∈ prep_phd [bRow1, tieRow3], p.1 ≠ bRow1)
    ∧ (∀ s ∈ [bRow1, tieRow3], ∀ y : Int, s.phd_year = some y →
        (s, create_phd_year_group y) ∈ prep_phd [bRow1, tieRow3])
    ∧ (∀ y : Int, y ≤ 1990 → create_phd_year_group y = "~1990")
    ∧ (∀ y : Int, 2017 < y → create_phd_year_group y = "2018~")
    ∧ (∀ y : Int, 1990 < y → y ≤ 2017 → create_phd_year_group y = toString y)
    ∧ create_phd_year_group 1988 = "~1990"
    ∧ create_phd_year_group 2020 = "2018~"
    ∧ create_phd_year_group 2005 = "2005" :=
  phd_bucketing [bRow1, tieRow3] bRow1 (by decide) (by decide)

end PeerReview

namespace PeerReview

/-! ### Positional field mapping (`expand_scores` and the Overall filter of
`read_all_reviews` in clean.py) -/

/-- The positional map `{0: 3, 1: 5, 2: 6, 3: 7}` applied by
`expand_scores` to token positions; a position outside the map receives a
missing field id (NaN), embedded as `none`. -/
def fieldIdOfPos : Nat → Option Nat
  | 0 => some 3
  | 1 => some 5
  | 2 => some 6
  | 3 => some 7
  | _ => none

/-- `expand_scores`: each review's scores blob is listified and stacked
into one row per token, keyed by review_id, the token position mapped
through `fieldIdOfPos`. -/
def expand_scores (rows : List (Nat × String)) :
    List (Nat × Option Nat × Int) :=
  rows.flatMap (fun rb =>
    ((listify_scores rb.2).enum).map (fun pv => (rb.1, fieldIdOfPos pv.1, pv.2)))

/-- The filter `scores['field_id'] == Field.F_OVERALL.value` of
`read_all_reviews`. -/
def overallScores (rows : List (Nat × String)) :
    List (Nat × Option Nat × Int) :=
  (expand_scores rows).filter (fun t => t.2.1 = some F_OVERALL)

theorem fieldIdOfPos_ne_overall {n : Nat} (hn : 2 ≤ n) :
    fieldIdOfPos n ≠ some F_OVERALL := by
  match n, hn with
  | 2, _ => decide
  | 3, _ => decide
  | (k + 4), _ =>
    intro h
    exact Option.noConfusion h

theorem enumFrom_fst_ge {β : Type _} :
    ∀ (l : List β) (n : Nat), ∀ pv ∈ List.enumFrom n l, n ≤ pv.1 := by
  intro l
  induction l with
  | nil =>
    intro n pv h
    cases h
  | cons a t ih =>
    intro n pv h
    rw [List.enumFrom_cons] at h
    rcases List.mem_cons.mp h with rfl | h'
    · exact le_refl n
    · exact le_trans (Nat.le_succ n) (ih (n + 1) pv h')

/-- C8: a blob yielding exactly four tokens has them positionally mapped
to field ids 3, 5, 6, 7 (audience, overall, confidence, alternative) in
order, and only the token at position 1 survives the Overall filter; for
any token count the computation still succeeds, retaining exactly the
position-1 token when one exists — the mapping is purely positional, so a
count other than 4 silently misaligns instead of raising an error. -/
theorem overall_positional (rid : Nat) (blob : String) (a b c d : Int)
    (h4 : listify_scores blob = [a, b, c, d]) :
    expand_scores [(rid, blob)]
      = [(rid, some F_AUDIENCE, a), (rid, some F_OVERALL, b),
         (rid, some F_CONFIDENCE, c), (rid, some F_ALTERNATIVE, d)]
    ∧ overallScores [(rid, blob)] = [(rid, some F_OVERALL, b)]
    ∧ ∀ s : String, overallScores [(rid, s)]
        = match (listify_scores s).get? 1 with
          | some v => [(rid, some F_OVERALL, v)]
          | none => [] := by
  have he : ∀ s : String, expand_scores [(rid, s)]
      = ((listify_scores s).enum).map
          (fun pv => (rid, fieldIdOfPos pv.1, pv.2)) := by
    intro s
    unfold expand_scores
    rw [List.flatMap_cons, List.flatMap_nil, List.append_nil]
  refine ⟨?_, ?_, ?_⟩
  · rw [he, h4]
    rfl
  · unfold overallScores
    rw [he, h4]
    rfl
  · intro s
    unfold overallScores
    rw [he]
    cases hts : listify_scores s with
    | nil => rfl
    | cons x ts =>
      cases ts with
      | nil => rfl
      | cons y ts' =>
        have hen : (x :: y :: ts').enum
            = (0, x) :: (1, y) :: List.enumFrom 2 ts' := rfl
        rw [hen, List.map_cons, List.map_cons,
          List.filter_cons_of_neg (by simp [fieldIdOfPos, F_OVERALL]),
          List.filter_cons_of_pos (by simp [fieldIdOfPos, F_OVERALL])]
        have hrest : ((List.enumFrom 2 ts').map
            (fun pv => (rid, fieldIdOfPos pv.1, pv.2))).filter
              (fun t => t.2.1 = some F_OVERALL) = [] := by
          rw [List.filter_eq_nil_iff]
          intro t ht
          obtain ⟨pv, hpv, rfl⟩ := List.mem_map.mp ht
          have h2 : 2 ≤ pv.1 := enumFrom_fst_ge ts' 2 pv hpv
          simp only [decide_eq_true_eq]
          exact fieldIdOfPos_ne_overall h2
        rw [hrest]
        rfl

def exBlob : String := "Audience: 3 Overall: -2 Confidence: 4 Alternative: 1"

/-- Witness for C8 at a well-formed four-token blob. -/
theorem overall_positional_witness :
    expand_scores [(1, exBlob)]
      = [(1, some F_AUDIENCE, 3), (1, some F_OVERALL, -2),
         (1, some F_CONFIDENCE, 4), (1, some F_ALTERNATIVE, 1)]
    ∧ overallScores [(1, exBlob)] = [(1, some F_OVERALL, -2)]
    ∧ ∀ s : String, overallScores [(1, s)]
        = match (listify_scores s).get? 1 with
          | some v => [(1, some F_OVERALL, v)]
          | none => [] :=
  overall_positional 1 exBlob 3 (-2) 4 1 (by decide)

end PeerReview
